import Mathlib

/-!
# omnifetch — shallow embedding and verification

Shallow embedding of `src/main.rs` and `src/util.rs` of bahamas10/omnifetch.
Rust strings are modelled as `List Char`; external effects (spawned process
results, the system clock, environment variables) are passed in explicitly.
A Rust `panic!` / failed `assert!` / out-of-bounds `Vec` index is modelled as
`Option.none`; a returned `anyhow::Error` (the `?` operator) is an
`Except.error`.
-/

namespace Omnifetch

/-- Rust `str::split(sep)` on a single-character separator: splits the
character list at every occurrence of `sep`; yields `[[]]` on empty input
and keeps empty fields, exactly like Rust's `split`. -/
def splitOnChar (sep : Char) : List Char → List (List Char)
  | [] => [[]]
  | c :: rest =>
    if c = sep then [] :: splitOnChar sep rest
    else
      match splitOnChar sep rest with
      | [] => [[c]]
      | f :: r => (c :: f) :: r

/-- `splitOnChar` never returns the empty list (Rust `split` always yields
at least one field). -/
theorem splitOnChar_ne_nil (sep : Char) (l : List Char) :
    splitOnChar sep l ≠ [] := by
  cases l with
  | nil => simp [splitOnChar]
  | cons c rest =>
    simp only [splitOnChar]
    split
    · simp
    · split <;> simp

theorem splitOnChar_length_pos (sep : Char) (l : List Char) :
    1 ≤ (splitOnChar sep l).length := by
  cases hsp : splitOnChar sep l with
  | nil => exact absurd hsp (splitOnChar_ne_nil sep l)
  | cons a b => simp

theorem splitOnChar_cons_sep (sep : Char) (rest : List Char) :
    splitOnChar sep (sep :: rest) = [] :: splitOnChar sep rest := by
  simp [splitOnChar]

theorem splitOnChar_cons_ne (sep c : Char) (rest : List Char) (h : c ≠ sep) :
    splitOnChar sep (c :: rest) =
      match splitOnChar sep rest with
      | [] => [[c]]
      | f :: r => (c :: f) :: r := by
  simp [splitOnChar, h]

/-- If `sep` occurs in the list, Rust `split` produces at least two fields. -/
theorem splitOnChar_length_ge_two (sep : Char) (l : List Char)
    (h : sep ∈ l) : 2 ≤ (splitOnChar sep l).length := by
  induction l with
  | nil => cases h
  | cons c rest ih =>
    by_cases hcs : c = sep
    · subst hcs
      rw [splitOnChar_cons_sep]
      have := splitOnChar_length_pos c rest
      simp only [List.length_cons]
      omega
    · have hrest : sep ∈ rest := by
        rcases List.mem_cons.mp h with hc | hr
        · exact absurd hc.symm hcs
        · exact hr
      have h2 := ih hrest
      rw [splitOnChar_cons_ne sep c rest hcs]
      cases hsp : splitOnChar sep rest with
      | nil => exact absurd hsp (splitOnChar_ne_nil sep rest)
      | cons f r =>
        rw [hsp] at h2
        simpa using h2

/-- Rust `str::trim`: drop whitespace characters from both ends of the
stream (interior characters untouched). -/
def trimChars (s : List Char) : List Char :=
  ((s.dropWhile Char.isWhitespace).reverse.dropWhile Char.isWhitespace).reverse

/-- Rust `str::replace(pat, repl)`: scan left to right; at each position, if
`pat` matches, emit `repl` and resume scanning after the match (the emitted
`repl` is never rescanned); otherwise copy one character.  The source only
ever uses non-empty patterns. -/
def replaceL (pat repl : List Char) : List Char → List Char
  | [] => []
  | c :: rest =>
    if pat ≠ [] ∧ pat.isPrefixOf (c :: rest) then
      repl ++ replaceL pat repl ((c :: rest).drop pat.length)
    else
      c :: replaceL pat repl rest
termination_by s => s.length
decreasing_by
  · simp only [List.length_drop, List.length_cons]
    have hp : 1 ≤ pat.length := by
      rcases pat with _ | ⟨p, ps⟩
      · simp_all
      · simp
    omega
  · simp

/-! ## `src/util.rs` -/

/-- Result of `std::process::Command::output()` for one spawned process:
exit status and captured stdout (assumed valid UTF-8; decoding is outside
this model). -/
structure ProcOutput where
  success : Bool
  stdout : List Char

/-- The errors `util::run` can return via `?` / `ensure!`. -/
inductive RunErr where
  | ioError
  | execFailed (msg : String)
deriving DecidableEq

/-- `util::run`: spawns `args[0]` with the remaining args (indexing `args[0]`
on an empty slice panics, modelled `none`; a spawn failure is the `ioError`
arm of the oracle), `ensure!`s a successful exit status with message
`"exec failed: {args joined by spaces}"`, and returns the trimmed stdout. -/
def run (args : List String) (spawned : Option ProcOutput) :
    Option (Except RunErr (List Char)) :=
  match args with
  | [] => none
  | _ :: _ =>
    some (match spawned with
      | none => .error .ioError
      | some res =>
        if res.success then .ok (trimChars res.stdout)
        else .error (.execFailed ("exec failed: " ++ String.intercalate " " args)))

/-- `util::should_colorize`: color is on iff `NO_COLOR` is absent from the
environment (its value is never inspected) and stdout is a tty. -/
def should_colorize (noColor : Option String) (isTTY : Bool) : Bool :=
  noColor.isNone && isTTY

/-- `util::colorize`: replace the `$(c0)`, `$(c1)`, `$(c2)` placeholders with
their ANSI escape sequences when colorizing, or with empty strings when not,
in the same order as the source's chained `.replace` calls. -/
def colorize (enabled : Bool) (s : List Char) : List Char :=
  if enabled then
    replaceL "$(c2)".data "\x1B[0m\x1B[38;5;8m".data
      (replaceL "$(c1)".data "\x1B[0m\x1B[38;5;208m".data
        (replaceL "$(c0)".data "\x1B[0m".data s))
  else
    replaceL "$(c2)".data []
      (replaceL "$(c1)".data [] (replaceL "$(c0)".data [] s))

/-! ## `src/main.rs` — probes

Each probe's external command output is passed in already split into lines
(`output.lines()` in the source); a line is a `List Char`. -/

/-- Rust `str::parse::<u64>()`: an optional leading `+`, then one or more
decimal digits, value below `2^64`; anything else is a parse error (`none`,
mapped to an `Except.error` by the caller's `?`). -/
def parseU64 (s : List Char) : Option Nat :=
  let digits := match s with
    | '+' :: rest => rest
    | _ => s
  if digits ≠ [] ∧ digits.all Char.isDigit then
    let v := digits.foldl (fun acc c => acc * 10 + (c.toNat - 48)) 0
    if v < 2 ^ 64 then some v else none
  else none

/-- `get_cpu`, brand extraction: for each line of `kstat -p cpu_info:::brand`
output, split on tab and take field 1 (`spl[1]`, a panic when absent). -/
def cpuBrandsOf (lines : List (List Char)) : Option (List (List Char)) :=
  lines.mapM (fun l => (splitOnChar '\t' l)[1]?)

/-- One step of `get_cpu`'s `HashMap` counting:
`*counts.entry(brand).or_insert(0) += 1`.  The `HashMap` is modelled as an
association list in first-seen key order; the source's iteration order over
the map is unspecified, so only order-independent facts are proved about it. -/
def bumpBrand (counts : List (List Char × Nat)) (b : List Char) :
    List (List Char × Nat) :=
  match counts with
  | [] => [(b, 1)]
  | (k, v) :: rest =>
    if k = b then (k, v + 1) :: rest else (k, v) :: bumpBrand rest b

/-- `get_cpu`'s counting loop over the extracted brands. -/
def countBrands (brands : List (List Char)) : List (List Char × Nat) :=
  brands.foldl bumpBrand []

/-- `get_cpu`'s rendering: one `"{count} x {brand}"` segment per map entry. -/
def cpuSegments (counts : List (List Char × Nat)) : List (List Char) :=
  counts.map (fun kv => (toString kv.2).data ++ " x ".data ++ kv.1)

/-- `get_cpu`: extract brands (panicking on a tab-less line), count them,
render the comma-joined segments. -/
def get_cpu (lines : List (List Char)) : Option (List Char) :=
  match cpuBrandsOf lines with
  | none => none
  | some brands =>
    some (List.intercalate ", ".data (cpuSegments (countBrands brands)))

/-- The errors `get_uptime` can return. -/
inductive UptimeErr where
  | parseErr
  | clockErr
deriving DecidableEq

/-- `get_uptime`: split the `kstat` boot-time output on tab, index field 1
(panic when absent), parse it as `u64` (`?` on failure), read the clock
(`duration_since(UNIX_EPOCH)` fails via `?` when the system time is before
the epoch, modelled by `now? = none`), subtract with u64 wrapping semantics
(the release-profile behavior of the unguarded `now - booted`; under the dev
profile the underflow is instead a panic), divide down to days and format. -/
def get_uptime (out : List Char) (now? : Option Nat) :
    Option (Except UptimeErr (List Char)) :=
  match (splitOnChar '\t' out)[1]? with
  | none => none
  | some f =>
    match parseU64 f with
    | none => some (.error .parseErr)
    | some booted =>
      match now? with
      | none => some (.error .clockErr)
      | some now =>
        let uptime_secs := (now + 2 ^ 64 - booted) % 2 ^ 64
        let uptime_days := uptime_secs / 60 / 60 / 24
        some (.ok (("up " ++ toString uptime_days ++ " days").data))

/-- The day count `get_uptime` computes from epoch seconds, in the
non-underflowing regime `booted ≤ now` where the wrapping subtraction agrees
with plain subtraction: `(now - booted) / 60 / 60 / 24`. -/
def uptimeDays (now booted : Nat) : Nat :=
  (now - booted) / 60 / 60 / 24

/-- Scan state of `get_bootenvironment`'s loop: the `next` and `current`
boot-environment names found so far. -/
abbrev BeState := Option (List Char) × Option (List Char)

/-- One iteration of `get_bootenvironment`'s loop over the `beadm list -H`
lines: split on `;`, read `spl[0]` (never absent) and `spl[2]` (panic when
the record has fewer than three fields), then — in source order — record the
name as `next` if the flags contain `R` (`assert!(next.is_none())`) and as
`current` if the flags contain `N` (`assert!(current.is_none())`); a failed
assertion is a panic (`none`). -/
def beStep (st : BeState) (line : List Char) : Option BeState :=
  let spl := splitOnChar ';' line
  match spl[0]?, spl[2]? with
  | some name, some flags =>
    let afterR : Option BeState :=
      if flags.contains 'R' then
        if st.1.isNone then some (some name, st.2) else none
      else some st
    match afterR with
    | none => none
    | some st1 =>
      if flags.contains 'N' then
        if st1.2.isNone then some (st1.1, some name) else none
      else some st1
  | _, _ => none

/-- `get_bootenvironment`: fold the loop over all lines, then unwrap `next`
and `current` (in that order) with `context` errors, and format: the current
name alone when `next == current`, else `"{current} (staged {next})"`. -/
def get_bootenvironment (lines : List (List Char)) :
    Option (Except String (List Char)) :=
  match lines.foldlM beStep ((none, none) : BeState) with
  | none => none
  | some (next?, current?) =>
    some (match next? with
      | none => .error "couldn't find next be"
      | some next =>
        match current? with
        | none => .error "couldn't find current be"
        | some current =>
          .ok (if next = current then current
               else current ++ " (staged ".data ++ next ++ ")".data))

/-! ## `src/main.rs` — driver and renderer -/

/-- `main`'s data gathering: ten probe results inserted into an `IndexMap`
(insertion-order-preserving, and all ten label keys are distinct, so the map
is exactly this association list in insertion order). -/
def collectData (os kernel zonename bootenv cpu uptime memory smf zones zfs :
    String) : List (String × String) :=
  [("OS", os), ("Kernel", kernel), ("Zonename", zonename),
   ("Boot Env", bootenv), ("CPU", cpu), ("Uptime", uptime),
   ("Memory", memory), ("SMF", smf), ("Zones", zones), ("ZFS", zfs)]

/-- The fact labels in the order `main` inserts them. -/
def factLabels : List String :=
  ["OS", "Kernel", "Zonename", "Boot Env", "CPU", "Uptime",
   "Memory", "SMF", "Zones", "ZFS"]

/-- `main`'s output block (the text to the right of the fenix logo): the
omnios logo lines, a blank line, the `user@hostname` banner, a dash
separator of length `len(user) + 1 + len(hostname)`, a blank line, then one
`"$(c1){label}:$(c0) {value}"` line per gathered fact in map order. -/
def buildOutput (omniosLines : List String) (user hostname : String)
    (data : List (String × String)) : List String :=
  omniosLines ++ [""]
    ++ ["$(c1)" ++ user ++ "$(c2)@$(c1)" ++ hostname,
        "$(c2)" ++ String.mk (List.replicate (user.length + 1 + hostname.length) '-'),
        ""]
    ++ data.map (fun kv => "$(c1)" ++ kv.1 ++ ":$(c0) " ++ kv.2)

/-- `colorize` lifted back to `String` for the renderer. -/
def colorizeS (enabled : Bool) (s : String) : String :=
  String.mk (colorize enabled s.data)

/-- `main`'s rendering loop: for each index `i` of the fenix logo's lines,
emit `colorize(fenix_line + " " + output.get(i).unwrap_or(""))`; output-block
lines beyond the logo are never visited. -/
def renderLines (fenixLines output : List String) (enabled : Bool) :
    List String :=
  fenixLines.enum.map (fun p => colorizeS enabled (p.2 ++ " " ++ output.getD p.1 ""))

/-! ## Theorems -/

theorem buildOutput_decomp (omniosLines : List String) (user hostname : String)
    (data : List (String × String)) :
    buildOutput omniosLines user hostname data =
      (omniosLines ++ ["",
        "$(c1)" ++ user ++ "$(c2)@$(c1)" ++ hostname,
        "$(c2)" ++ String.mk (List.replicate (user.length + 1 + hostname.length) '-'),
        ""])
      ++ data.map (fun kv => "$(c1)" ++ kv.1 ++ ":$(c0) " ++ kv.2) := by
  simp [buildOutput]

/-- C2: on every successful run exactly ten facts are gathered, their labels
are exactly `OS, Kernel, Zonename, Boot Env, CPU, Uptime, Memory, SMF,
Zones, ZFS` in insertion order, and the output block displays them in that
same order (the fact lines are the tail of the output block, one per fact,
unsorted). -/
theorem main_ten_facts_in_order
    (os kernel zonename bootenv cpu uptime memory smf zones zfs : String)
    (omniosLines : List String) (user hostname : String) :
    (collectData os kernel zonename bootenv cpu uptime memory smf zones zfs).map
        Prod.fst = factLabels
    ∧ (collectData os kernel zonename bootenv cpu uptime memory smf zones zfs).length
        = 10
    ∧ (buildOutput omniosLines user hostname
        (collectData os kernel zonename bootenv cpu uptime memory smf zones zfs)).drop
          (omniosLines.length + 4)
      = (collectData os kernel zonename bootenv cpu uptime memory smf zones
          zfs).map (fun kv => "$(c1)" ++ kv.1 ++ ":$(c0) " ++ kv.2) := by
  refine ⟨rfl, rfl, ?_⟩
  rw [buildOutput_decomp, List.drop_left']
  simp

/-- C5: the `i`-th rendered line is the `i`-th fenix-logo line, a space, and
the `i`-th output-block line (empty when absent), colorized; and the number
of rendered lines always equals the number of fenix-logo lines, so surplus
output-block lines are dropped. -/
theorem render_line_formula (fenixLines output : List String) (enabled : Bool)
    (i : Nat) (h : i < fenixLines.length) :
    (renderLines fenixLines output enabled).length = fenixLines.length
    ∧ (renderLines fenixLines output enabled)[i]? =
        some (colorizeS enabled
          (fenixLines.getD i "" ++ " " ++ output.getD i "")) := by
  constructor
  · simp [renderLines]
  · simp [renderLines, List.getElem?_map, List.getElem?_enum,
      List.getElem?_eq_getElem h, List.getD_eq_getElem?_getD]

theorem render_line_formula_witness :
    (renderLines ["A"] [] false).length = (["A"] : List String).length
    ∧ (renderLines ["A"] [] false)[0]? =
        some (colorizeS false
          ((["A"] : List String).getD 0 "" ++ " "
            ++ ([] : List String).getD 0 "")) :=
  render_line_formula ["A"] [] false 0 (by decide)

/-- C3 (amended): for `booted ≤ now` the day count is
`(now - booted) / 86400` with floor semantics, and adding `86400` to `now`
raises it by exactly 1; adding `86399` leaves it unchanged when
`now - booted` is a multiple of 86400, and in general raises it by at most
1.  Moreover `get_uptime` renders exactly this day count whenever the kstat
field parses to `booted` and the clock reads `now < 2^64`. -/
theorem uptime_days_floor_monotone (booted now : Nat) (h : booted ≤ now) :
    uptimeDays now booted = (now - booted) / 86400
    ∧ uptimeDays (now + 86400) booted = uptimeDays now booted + 1
    ∧ ((now - booted) % 86400 = 0 →
        uptimeDays (now + 86399) booted = uptimeDays now booted)
    ∧ uptimeDays (now + 86399) booted ≤ uptimeDays now booted + 1
    ∧ (∀ out f, (splitOnChar '\t' out)[1]? = some f → parseU64 f = some booted →
        now < 2 ^ 64 →
        get_uptime out (some now) =
          some (.ok (("up " ++ toString (uptimeDays now booted) ++ " days").data))) := by
  refine ⟨?_, ?_, ?_, ?_, ?_⟩
  · simp only [uptimeDays]
    omega
  · simp only [uptimeDays]
    omega
  · intro hmod
    simp only [uptimeDays]
    omega
  · simp only [uptimeDays]
    omega
  · intro out f hf hp h64
    have hb : booted < 2 ^ 64 := by
      simp only [parseU64] at hp
      split at hp
      · split at hp
        · exact Option.some.inj hp ▸ (by assumption)
        · exact absurd hp (by simp)
      · exact absurd hp (by simp)
    simp only [get_uptime, hf, hp]
    have hwrap : (now + 2 ^ 64 - booted) % 2 ^ 64 = now - booted := by
      have h1 : now + 2 ^ 64 - booted = (now - booted) + 2 ^ 64 := by omega
      rw [h1, Nat.add_mod_right, Nat.mod_eq_of_lt (by omega)]
    rw [hwrap]
    rfl

theorem uptime_days_floor_monotone_witness :
    uptimeDays 100000 100 = (100000 - 100) / 86400
    ∧ uptimeDays (100000 + 86400) 100 = uptimeDays 100000 100 + 1
    ∧ ((100000 - 100) % 86400 = 0 →
        uptimeDays (100000 + 86399) 100 = uptimeDays 100000 100)
    ∧ uptimeDays (100000 + 86399) 100 ≤ uptimeDays 100000 100 + 1
    ∧ (∀ out f, (splitOnChar '\t' out)[1]? = some f → parseU64 f = some 100 →
        100000 < 2 ^ 64 →
        get_uptime out (some 100000) =
          some (.ok (("up " ++ toString (uptimeDays 100000 100) ++ " days").data))) :=
  uptime_days_floor_monotone 100 100000 (by norm_num)

/-- C3, counterexample to the claim as stated: with `booted = 0 ≤ 1 = now`,
replacing `now` by `now + 86399` changes the reported day count (from 0 to
1), so an 86399-second increase does not in general leave the count
unchanged. -/
theorem uptime_86399_not_constant :
    (0 : Nat) ≤ 1 ∧ uptimeDays (1 + 86399) 0 ≠ uptimeDays 1 0 := by
  constructor
  · norm_num
  · show uptimeDays 86400 0 ≠ uptimeDays 1 0
    simp only [uptimeDays]
    norm_num

/-- Replacing a pattern by the empty string only ever deletes characters:
the result is a sublist of the input. -/
theorem replaceL_empty_sublist (pat : List Char) (s : List Char) :
    (replaceL pat [] s).Sublist s := by
  suffices h : ∀ n (s : List Char), s.length = n → (replaceL pat [] s).Sublist s from
    h s.length s rfl
  intro n
  induction n using Nat.strong_induction_on with
  | _ n ih =>
    intro s hn
    cases s with
    | nil => simp [replaceL]
    | cons c rest =>
      simp only [List.length_cons] at hn
      rw [replaceL]
      split
      · rename_i hcond
        have hp : 1 ≤ pat.length := by
          rcases pat with _ | ⟨p, ps⟩
          · simp_all
          · simp
        have hd : ((c :: rest).drop pat.length).length < n := by
          simp only [List.length_drop, List.length_cons]
          omega
        have hsub := ih _ hd ((c :: rest).drop pat.length) rfl
        simpa using hsub.trans (List.drop_sublist _ _)
      · exact List.Sublist.cons₂ c (ih rest.length (by omega) rest rfl)

/-- C8: when `NO_COLOR` is present in the environment (whatever its value),
`should_colorize` is false, so `colorize` takes the branch that replaces all
three placeholders by empty strings; the output is then a sublist of the
input (only deletions), and in particular an input line without a raw
`\x1B` byte yields output without any `\x1B` byte. -/
theorem no_color_disables_escapes (v : String) (tty : Bool) (s : List Char)
    (h : '\x1B' ∉ s) :
    should_colorize (some v) tty = false
    ∧ (colorize (should_colorize (some v) tty) s).Sublist s
    ∧ '\x1B' ∉ colorize (should_colorize (some v) tty) s := by
  have hsc : should_colorize (some v) tty = false := by simp [should_colorize]
  have hsub : (colorize false s).Sublist s := by
    simp only [colorize, Bool.false_eq_true, if_false]
    exact ((replaceL_empty_sublist _ _).trans
      (replaceL_empty_sublist _ _)).trans (replaceL_empty_sublist _ _)
  refine ⟨hsc, ?_, ?_⟩
  · rw [hsc]
    exact hsub
  · rw [hsc]
    intro hmem
    exact h (hsub.subset hmem)

theorem no_color_disables_escapes_witness :
    '\x1B' ∉ "$(c1)OS:$(c0) OmniOS".data
    ∧ (should_colorize (some "1") true = false
       ∧ (colorize (should_colorize (some "1") true) "$(c1)OS:$(c0) OmniOS".data).Sublist
           "$(c1)OS:$(c0) OmniOS".data
       ∧ '\x1B' ∉ colorize (should_colorize (some "1") true)
           "$(c1)OS:$(c0) OmniOS".data) :=
  ⟨by decide, no_color_disables_escapes "1" true "$(c1)OS:$(c0) OmniOS".data
    (by decide)⟩

theorem head_dropWhile_not (p : Char → Bool) (l : List Char) (c : Char)
    (h : (l.dropWhile p).head? = some c) : p c = false := by
  induction l with
  | nil => simp [List.dropWhile] at h
  | cons a rest ih =>
    rw [List.dropWhile_cons] at h
    split at h
    · exact ih h
    · simp only [List.head?_cons, Option.some.injEq] at h
      subst h
      simp_all

theorem dropWhile_eq_trim_append (s : List Char) :
    s.dropWhile Char.isWhitespace =
      trimChars s
      ++ ((s.dropWhile Char.isWhitespace).reverse.takeWhile
            Char.isWhitespace).reverse := by
  conv_lhs =>
    rw [← List.reverse_reverse (s.dropWhile Char.isWhitespace),
      ← List.takeWhile_append_dropWhile Char.isWhitespace
        (s.dropWhile Char.isWhitespace).reverse]
  rw [List.reverse_append]
  rfl

/-- `trimChars` removes characters only at the two ends of the stream, and
everything it removes is whitespace: the input splits as a whitespace-only
prefix, the trimmed result, and a whitespace-only suffix. -/
theorem trimChars_decomp (s : List Char) :
    ∃ a b, s = a ++ trimChars s ++ b
      ∧ a.all Char.isWhitespace ∧ b.all Char.isWhitespace := by
  refine ⟨s.takeWhile Char.isWhitespace,
    ((s.dropWhile Char.isWhitespace).reverse.takeWhile Char.isWhitespace).reverse,
    ?_, ?_, ?_⟩
  · conv_lhs => rw [← List.takeWhile_append_dropWhile Char.isWhitespace s]
    rw [List.append_assoc]
    congr 1
    exact dropWhile_eq_trim_append s
  · exact List.all_eq_true.mpr fun x hx => List.mem_takeWhile_imp hx
  · exact List.all_eq_true.mpr fun x hx =>
      List.mem_takeWhile_imp (List.mem_reverse.mp hx)

theorem trimChars_head_not_ws (s : List Char) (c : Char)
    (h : (trimChars s).head? = some c) : c.isWhitespace = false := by
  have hd := dropWhile_eq_trim_append s
  have hh : (s.dropWhile Char.isWhitespace).head? = some c := by
    rw [hd]
    cases ht : trimChars s with
    | nil => rw [ht] at h; simp at h
    | cons x xs =>
      rw [ht] at h
      simp only [List.head?_cons, Option.some.injEq] at h
      subst h
      simp
  exact head_dropWhile_not _ _ _ hh

theorem trimChars_getLast_not_ws (s : List Char) (c : Char)
    (h : (trimChars s).getLast? = some c) : c.isWhitespace = false := by
  have : (trimChars s).getLast? =
      ((s.dropWhile Char.isWhitespace).reverse.dropWhile Char.isWhitespace).head? :=
    List.getLast?_reverse _
  rw [this] at h
  exact head_dropWhile_not _ _ _ h

/-- C7: for a non-empty argument vector, `run` fails with an error carrying
the whitespace-joined command string whenever the process exits
unsuccessfully; on success it returns the captured stdout trimmed only at
the very start and end of the whole stream (the result is a contiguous
interior slice of the raw stdout, with only whitespace removed on either
side, so interior lines are untouched). -/
theorem run_spec (args : List String) (res : ProcOutput) (hargs : args ≠ []) :
    (res.success = false →
        run args (some res) =
          some (.error (.execFailed
            ("exec failed: " ++ String.intercalate " " args))))
    ∧ (res.success = true →
        run args (some res) = some (.ok (trimChars res.stdout))
        ∧ (∃ a b, res.stdout = a ++ trimChars res.stdout ++ b
            ∧ a.all Char.isWhitespace ∧ b.all Char.isWhitespace)
        ∧ (∀ c, (trimChars res.stdout).head? = some c → c.isWhitespace = false)
        ∧ (∀ c, (trimChars res.stdout).getLast? = some c →
            c.isWhitespace = false)) := by
  rcases args with _ | ⟨a, rest⟩
  · exact absurd rfl hargs
  constructor
  · intro hs
    simp [run, hs]
  · intro hs
    exact ⟨by simp [run, hs], trimChars_decomp _,
      fun c h => trimChars_head_not_ws _ c h,
      fun c h => trimChars_getLast_not_ws _ c h⟩

theorem run_spec_witness :
    ((ProcOutput.mk true " a b ".data).success = false →
        run ["uname", "-v"] (some (ProcOutput.mk true " a b ".data)) =
          some (.error (.execFailed
            ("exec failed: " ++ String.intercalate " " ["uname", "-v"]))))
    ∧ ((ProcOutput.mk true " a b ".data).success = true →
        run ["uname", "-v"] (some (ProcOutput.mk true " a b ".data)) =
          some (.ok (trimChars " a b ".data))
        ∧ (∃ a b, " a b ".data = a ++ trimChars " a b ".data ++ b
            ∧ a.all Char.isWhitespace ∧ b.all Char.isWhitespace)
        ∧ (∀ c, (trimChars " a b ".data).head? = some c →
            c.isWhitespace = false)
        ∧ (∀ c, (trimChars " a b ".data).getLast? = some c →
            c.isWhitespace = false)) :=
  run_spec ["uname", "-v"] (ProcOutput.mk true " a b ".data) (by simp)

theorem bumpBrand_sum (c : List (List Char × Nat)) (b : List Char) :
    ((bumpBrand c b).map Prod.snd).sum = ((c.map Prod.snd).sum) + 1 := by
  induction c with
  | nil => simp [bumpBrand]
  | cons kv rest ih =>
    obtain ⟨k, v⟩ := kv
    simp only [bumpBrand]
    split
    · simp only [List.map_cons, List.sum_cons]
      omega
    · simp only [List.map_cons, List.sum_cons, ih]
      omega

theorem bumpBrand_keys (c : List (List Char × Nat)) (b : List Char) :
    (bumpBrand c b).map Prod.fst =
      if b ∈ c.map Prod.fst then c.map Prod.fst else c.map Prod.fst ++ [b] := by
  induction c with
  | nil => simp [bumpBrand]
  | cons kv rest ih =>
    obtain ⟨k, v⟩ := kv
    simp only [bumpBrand]
    split
    · rename_i hk
      subst hk
      simp
    · rename_i hk
      simp only [List.map_cons, ih, List.mem_cons]
      by_cases hb : b ∈ rest.map Prod.fst
      · simp [hb]
      · have hbk : ¬b = k := fun h => hk h.symm
        simp [hb, hbk]

theorem bumpBrand_keys_mem (c : List (List Char × Nat)) (b x : List Char) :
    x ∈ (bumpBrand c b).map Prod.fst ↔ x ∈ c.map Prod.fst ∨ x = b := by
  rw [bumpBrand_keys]
  split
  · rename_i hb
    constructor
    · exact Or.inl
    · rintro (h | rfl)
      · exact h
      · exact hb
  · simp

theorem bumpBrand_keys_nodup (c : List (List Char × Nat)) (b : List Char)
    (h : (c.map Prod.fst).Nodup) : ((bumpBrand c b).map Prod.fst).Nodup := by
  rw [bumpBrand_keys]
  split
  · exact h
  · rename_i hb
    simp [List.nodup_append, h, hb]

theorem foldl_bump_sum (brands : List (List Char))
    (acc : List (List Char × Nat)) :
    (((brands.foldl bumpBrand acc).map Prod.snd).sum) =
      ((acc.map Prod.snd).sum) + brands.length := by
  induction brands generalizing acc with
  | nil => simp
  | cons b rest ih =>
    simp only [List.foldl_cons, ih, bumpBrand_sum, List.length_cons]
    omega

theorem foldl_bump_keys_nodup (brands : List (List Char))
    (acc : List (List Char × Nat)) (h : (acc.map Prod.fst).Nodup) :
    (((brands.foldl bumpBrand acc).map Prod.fst)).Nodup := by
  induction brands generalizing acc with
  | nil => exact h
  | cons b rest ih => exact ih _ (bumpBrand_keys_nodup acc b h)

theorem foldl_bump_keys_mem (brands : List (List Char))
    (acc : List (List Char × Nat)) (x : List Char) :
    x ∈ (brands.foldl bumpBrand acc).map Prod.fst ↔
      x ∈ acc.map Prod.fst ∨ x ∈ brands := by
  induction brands generalizing acc with
  | nil => simp
  | cons b rest ih =>
    simp only [List.foldl_cons, ih, bumpBrand_keys_mem, List.mem_cons]
    tauto

/-- With every line having at least two tab-separated fields, brand
extraction succeeds and yields each line's second field. -/
theorem cpuBrandsOf_eq (lines : List (List Char))
    (h2 : ∀ l ∈ lines, 2 ≤ (splitOnChar '\t' l).length) :
    cpuBrandsOf lines =
      some (lines.map (fun l => (splitOnChar '\t' l).getD 1 [])) := by
  induction lines with
  | nil => rfl
  | cons l rest ih =>
    have hl : 2 ≤ (splitOnChar '\t' l).length := h2 l (List.mem_cons_self l rest)
    have hidx : (splitOnChar '\t' l)[1]? = some ((splitOnChar '\t' l).getD 1 []) := by
      rw [List.getD_eq_getElem?_getD, List.getElem?_eq_getElem (by omega)]
      rfl
    simp only [cpuBrandsOf] at ih ⊢
    rw [List.mapM_cons, hidx, ih fun l hm => h2 l (List.mem_cons_of_mem _ hm)]
    rfl

/-- C4: when every line of the CPU-brand output has at least two
tab-separated fields, `get_cpu` succeeds with the comma-joined
`"{count} x {brand}"` segments of the brand counts, the per-brand counts sum
to the number of input lines, and each distinct brand (second tab field)
keys exactly one segment — the key list has no duplicates and contains
precisely the brands occurring in the input. -/
theorem get_cpu_counts (lines : List (List Char))
    (h2 : ∀ l ∈ lines, 2 ≤ (splitOnChar '\t' l).length) :
    get_cpu lines =
      some (List.intercalate ", ".data (cpuSegments (countBrands
        (lines.map (fun l => (splitOnChar '\t' l).getD 1 [])))))
    ∧ (((countBrands (lines.map (fun l => (splitOnChar '\t' l).getD 1 []))).map
        Prod.snd).sum) = lines.length
    ∧ ((countBrands (lines.map (fun l => (splitOnChar '\t' l).getD 1 []))).map
        Prod.fst).Nodup
    ∧ ∀ b, b ∈ (countBrands (lines.map (fun l => (splitOnChar '\t' l).getD 1 []))).map
        Prod.fst ↔ b ∈ lines.map (fun l => (splitOnChar '\t' l).getD 1 []) := by
  refine ⟨?_, ?_, ?_, ?_⟩
  · simp [get_cpu, cpuBrandsOf_eq lines h2]
  · rw [countBrands, foldl_bump_sum]
    simp
  · exact foldl_bump_keys_nodup _ _ (by simp)
  · intro b
    rw [countBrands, foldl_bump_keys_mem]
    simp

theorem get_cpu_counts_witness :
    get_cpu ["m:0\tIntel".data, "m:1\tIntel".data, "m:2\tAMD".data] =
      some (List.intercalate ", ".data (cpuSegments (countBrands
        (["m:0\tIntel".data, "m:1\tIntel".data, "m:2\tAMD".data].map
          (fun l => (splitOnChar '\t' l).getD 1 [])))))
    ∧ (((countBrands (["m:0\tIntel".data, "m:1\tIntel".data, "m:2\tAMD".data].map
        (fun l => (splitOnChar '\t' l).getD 1 []))).map Prod.snd).sum) =
        (["m:0\tIntel".data, "m:1\tIntel".data, "m:2\tAMD".data] :
          List (List Char)).length
    ∧ ((countBrands (["m:0\tIntel".data, "m:1\tIntel".data, "m:2\tAMD".data].map
        (fun l => (splitOnChar '\t' l).getD 1 []))).map Prod.fst).Nodup
    ∧ ∀ b, b ∈ (countBrands (["m:0\tIntel".data, "m:1\tIntel".data,
        "m:2\tAMD".data].map (fun l => (splitOnChar '\t' l).getD 1 []))).map
        Prod.fst ↔ b ∈ ["m:0\tIntel".data, "m:1\tIntel".data, "m:2\tAMD".data].map
        (fun l => (splitOnChar '\t' l).getD 1 []) :=
  get_cpu_counts ["m:0\tIntel".data, "m:1\tIntel".data, "m:2\tAMD".data]
    (by decide)

/-- C10: a CPU-brand output line with no tab character makes `get_cpu` panic
(`spl[1]` is out of bounds — modelled `none`), shown on a concrete input;
and whenever every line contains at least one tab, `get_cpu` returns
normally. -/
theorem get_cpu_tabless_panics (lines : List (List Char))
    (h : ∀ l ∈ lines, '\t' ∈ l) :
    get_cpu ["cpu_info:0:cpu_info0:brand AMD".data] = none
    ∧ (get_cpu lines).isSome = true := by
  constructor
  · decide
  · have h2 : ∀ l ∈ lines, 2 ≤ (splitOnChar '\t' l).length := fun l hm =>
      splitOnChar_length_ge_two '\t' l (h l hm)
    simp [get_cpu, cpuBrandsOf_eq lines h2]

theorem get_cpu_tabless_panics_witness :
    get_cpu ["cpu_info:0:cpu_info0:brand AMD".data] = none
    ∧ (get_cpu ["m:0\tAMD".data]).isSome = true :=
  get_cpu_tabless_panics ["m:0\tAMD".data] (by decide)

theorem parseU64_lt (f : List Char) (b : Nat) (h : parseU64 f = some b) :
    b < 2 ^ 64 := by
  simp only [parseU64] at h
  split at h
  · split at h
    · exact Option.some.inj h ▸ (by assumption)
    · simp at h
  · simp at h

/-- C9: the only time-related condition `get_uptime` reports as a returned
error is a system clock before the Unix epoch (`duration_since` failing);
when the parsed boot epoch exceeds the current time, the unguarded u64
subtraction wraps (release profile; under checked arithmetic it would be a
panic instead) and `get_uptime` still returns `Ok` with the enormous
wrapped day count `(2^64 - (booted - now)) / 86400`, not an error. -/
theorem get_uptime_underflow_unguarded (out f : List Char) (booted now : Nat)
    (hf : (splitOnChar '\t' out)[1]? = some f)
    (hp : parseU64 f = some booted)
    (hlt : now < booted) :
    get_uptime out none = some (.error .clockErr)
    ∧ get_uptime out (some now) =
        some (.ok (("up " ++ toString ((2 ^ 64 - (booted - now)) / 86400)
          ++ " days").data)) := by
  have hb : booted < 2 ^ 64 := parseU64_lt f booted hp
  constructor
  · simp [get_uptime, hf, hp]
  · have hval : (now + 2 ^ 64 - booted) % 2 ^ 64 / 60 / 60 / 24 =
        (2 ^ 64 - (booted - now)) / 86400 := by
      have h1 : now + 2 ^ 64 - booted = 2 ^ 64 - (booted - now) := by omega
      have h2 : 2 ^ 64 - (booted - now) < 2 ^ 64 := by omega
      rw [h1, Nat.mod_eq_of_lt h2]
      omega
    simp only [get_uptime, hf, hp]
    rw [hval]

theorem get_uptime_underflow_unguarded_witness :
    get_uptime "a\t5".data none = some (.error .clockErr)
    ∧ get_uptime "a\t5".data (some 3) =
        some (.ok (("up " ++ toString ((2 ^ 64 - (5 - 3)) / 86400)
          ++ " days").data)) :=
  get_uptime_underflow_unguarded "a\t5".data "5".data 5 3 (by decide) (by decide)
    (by decide)

/-- The `;`-separated fields of one `beadm list -H` record. -/
def beFields (l : List Char) : List (List Char) := splitOnChar ';' l

/-- `spl[0]` of a record: the boot environment's name. -/
def beName (l : List Char) : List Char := (beFields l).getD 0 []

/-- `spl[2]` of a record: its flags field. -/
def beFlags (l : List Char) : List Char := (beFields l).getD 2 []

/-- Whether a record's flags contain `R` (the "next" boot environment). -/
def isR (l : List Char) : Bool := (beFlags l).contains 'R'

/-- Whether a record's flags contain `N` (the "current" boot environment). -/
def isN (l : List Char) : Bool := (beFlags l).contains 'N'

/-- First-`some` choice, used to describe the scan's final state. -/
def fallback (o d : Option (List Char)) : Option (List Char) :=
  match o with
  | some a => some a
  | none => d

theorem beFields_getElem?_zero (l : List Char) :
    (beFields l)[0]? = some (beName l) := by
  have hl : 0 < (beFields l).length := by
    have := splitOnChar_length_pos ';' l
    simpa [beFields] using this
  rw [List.getElem?_eq_getElem hl]
  simp [beName, List.getD_eq_getElem?_getD, List.getElem?_eq_getElem hl]

theorem beFields_getElem?_two (l : List Char) (h3 : 3 ≤ (beFields l).length) :
    (beFields l)[2]? = some (beFlags l) := by
  have hl : 2 < (beFields l).length := by omega
  rw [List.getElem?_eq_getElem hl]
  simp [beFlags, List.getD_eq_getElem?_getD, List.getElem?_eq_getElem hl]

/-- `beStep` on a record with at least three fields, written as explicit
case analysis over the two flag tests and the two assertions. -/
theorem beStep_eval (st : BeState) (l : List Char)
    (h3 : 3 ≤ (beFields l).length) :
    beStep st l =
      if isR l then
        if st.1.isNone then
          if isN l then
            if st.2.isNone then some (some (beName l), some (beName l))
            else none
          else some (some (beName l), st.2)
        else none
      else
        if isN l then
          if st.2.isNone then some (st.1, some (beName l)) else none
        else some st := by
  obtain ⟨n?, c?⟩ := st
  have h0 := beFields_getElem?_zero l
  have h2 := beFields_getElem?_two l h3
  simp only [beFields] at h0 h2
  simp only [beStep, h0, h2]
  cases hR : (beFlags l).contains 'R' <;> cases hN : (beFlags l).contains 'N' <;>
    simp at hR hN <;>
    cases n? <;> cases c? <;>
      simp [isR, isN, hR, hN]

theorem fallback_some (a : List Char) (d : Option (List Char)) :
    fallback (some a) d = some a := rfl

theorem fallback_none (d : Option (List Char)) : fallback none d = d := rfl

/-- The scan loop of `get_bootenvironment`, fully characterized on listings
whose records have at least three fields and where the number of `R`-flagged
(resp. `N`-flagged) records plus an already-recorded `next` (resp.
`current`) does not exceed one — i.e. no assertion can fire: the final
state keeps an incoming name and otherwise records the name of the first
(only) matching record. -/
theorem beScan_general (lines : List (List Char)) :
    ∀ (next current : Option (List Char)),
      (∀ l ∈ lines, 3 ≤ (beFields l).length) →
      lines.countP isR + (if next.isSome then 1 else 0) ≤ 1 →
      lines.countP isN + (if current.isSome then 1 else 0) ≤ 1 →
      lines.foldlM beStep (next, current) =
        some (fallback next ((lines.find? isR).map beName),
              fallback current ((lines.find? isN).map beName)) := by
  induction lines with
  | nil =>
    intro next current h3 hR hN
    cases next <;> cases current <;>
      simp [fallback, List.foldlM_nil]
  | cons l rest ih =>
    intro next current h3 hR hN
    have h3l := h3 l (List.mem_cons_self l rest)
    have h3r : ∀ x ∈ rest, 3 ≤ (beFields x).length := fun x hx =>
      h3 x (List.mem_cons_of_mem _ hx)
    rw [List.countP_cons] at hR hN
    by_cases hRl : isR l = true
    · have hnext : next = none := by
        cases next
        · rfl
        · simp [hRl] at hR
      subst hnext
      have hr0 : rest.countP isR = 0 := by
        simp only [hRl, if_true, Option.isSome_none, Bool.false_eq_true,
          if_false] at hR
        omega
      by_cases hNl : isN l = true
      · have hcur : current = none := by
          cases current
          · rfl
          · simp [hNl] at hN
        subst hcur
        have hn0 : rest.countP isN = 0 := by
          simp only [hNl, if_true, Option.isSome_none, Bool.false_eq_true,
            if_false] at hN
          omega
        have hstep : beStep ((none, none) : BeState) l =
            some (some (beName l), some (beName l)) := by
          rw [beStep_eval _ _ h3l]
          simp [hRl, hNl]
        rw [List.foldlM_cons, hstep]
        have hrec := ih (some (beName l)) (some (beName l)) h3r
          (by simp [hr0]) (by simp [hn0])
        simp only [Option.bind_eq_bind, Option.some_bind] at *
        rw [hrec, List.find?_cons_of_pos _ hRl, List.find?_cons_of_pos _ hNl]
        simp [fallback]
      · have hstep : beStep ((none, current) : BeState) l =
            some (some (beName l), current) := by
          rw [beStep_eval _ _ h3l]
          simp [hRl, hNl]
        rw [List.foldlM_cons, hstep]
        have hrec := ih (some (beName l)) current h3r
          (by simp [hr0]) (by simpa [hNl] using hN)
        simp only [Option.bind_eq_bind, Option.some_bind] at *
        rw [hrec, List.find?_cons_of_pos _ hRl, List.find?_cons_of_neg _ hNl]
        simp [fallback]
    · by_cases hNl : isN l = true
      · have hcur : current = none := by
          cases current
          · rfl
          · simp [hNl] at hN
        subst hcur
        have hn0 : rest.countP isN = 0 := by
          simp only [hNl, if_true, Option.isSome_none, Bool.false_eq_true,
            if_false] at hN
          omega
        have hstep : beStep ((next, none) : BeState) l =
            some (next, some (beName l)) := by
          rw [beStep_eval _ _ h3l]
          simp [hRl, hNl]
        rw [List.foldlM_cons, hstep]
        have hrec := ih next (some (beName l)) h3r
          (by simpa [hRl] using hR) (by simp [hn0])
        simp only [Option.bind_eq_bind, Option.some_bind] at *
        rw [hrec, List.find?_cons_of_neg _ hRl, List.find?_cons_of_pos _ hNl]
        simp [fallback]
      · have hstep : beStep ((next, current) : BeState) l =
            some (next, current) := by
          rw [beStep_eval _ _ h3l]
          simp [hRl, hNl]
        rw [List.foldlM_cons, hstep]
        have hrec := ih next current h3r
          (by simpa [hRl] using hR) (by simpa [hNl] using hN)
        simp only [Option.bind_eq_bind, Option.some_bind] at *
        rw [hrec, List.find?_cons_of_neg _ hRl, List.find?_cons_of_neg _ hNl]

/-- Once `current` is recorded, any further `N`-flagged record (with no
`R`-flagged record intervening to panic first) fires
`assert!(current.is_none())`: the scan panics. -/
theorem beScan_second_N_panics (lines : List (List Char)) :
    ∀ (next : Option (List Char)) (cur : List Char),
      (∀ l ∈ lines, 3 ≤ (beFields l).length) →
      lines.countP isR = 0 → 1 ≤ lines.countP isN →
      lines.foldlM beStep (next, some cur) = none := by
  induction lines with
  | nil =>
    intro next cur h3 hR hN
    simp at hN
  | cons l rest ih =>
    intro next cur h3 hR hN
    have h3l := h3 l (List.mem_cons_self l rest)
    have h3r : ∀ x ∈ rest, 3 ≤ (beFields x).length := fun x hx =>
      h3 x (List.mem_cons_of_mem _ hx)
    rw [List.countP_cons] at hR hN
    have hRl : ¬isR l = true := by
      intro hc
      rw [if_pos hc] at hR
      omega
    by_cases hNl : isN l = true
    · have hstep : beStep ((next, some cur) : BeState) l = none := by
        rw [beStep_eval _ _ h3l]
        simp [hRl, hNl]
      rw [List.foldlM_cons, hstep]
      rfl
    · have hstep : beStep ((next, some cur) : BeState) l =
          some (next, some cur) := by
        rw [beStep_eval _ _ h3l]
        simp [hRl, hNl]
      rw [List.foldlM_cons, hstep]
      have hr0 : rest.countP isR = 0 := by
        rw [if_neg hRl] at hR
        omega
      have hn1 : 1 ≤ rest.countP isN := by
        rw [if_neg hNl] at hN
        omega
      simpa using ih next cur h3r hr0 hn1

/-- C6: a listing with no `R`-flagged record and two `N`-flagged records
makes `get_bootenvironment` fail fatally with a panic (the
`assert!(current.is_none())` fires at the second `N` record); it does not
pick one of the two records. -/
theorem get_bootenvironment_two_N_fatal (lines : List (List Char))
    (h3 : ∀ l ∈ lines, 3 ≤ (beFields l).length)
    (hR : lines.countP isR = 0) (hN : lines.countP isN = 2) :
    get_bootenvironment lines = none := by
  suffices h : ∀ (lines : List (List Char)) (next : Option (List Char)),
      (∀ l ∈ lines, 3 ≤ (beFields l).length) →
      lines.countP isR = 0 → 2 ≤ lines.countP isN →
      lines.foldlM beStep (next, none) = none by
    rw [get_bootenvironment, h lines none h3 hR (by omega)]
  intro lines
  induction lines with
  | nil =>
    intro next h3 hR hN
    simp at hN
  | cons l rest ih =>
    intro next h3 hR hN
    have h3l := h3 l (List.mem_cons_self l rest)
    have h3r : ∀ x ∈ rest, 3 ≤ (beFields x).length := fun x hx =>
      h3 x (List.mem_cons_of_mem _ hx)
    rw [List.countP_cons] at hR hN
    have hRl : ¬isR l = true := by
      intro hc
      rw [if_pos hc] at hR
      omega
    have hr0 : rest.countP isR = 0 := by
      rw [if_neg hRl] at hR
      omega
    by_cases hNl : isN l = true
    · have hstep : beStep ((next, none) : BeState) l =
          some (next, some (beName l)) := by
        rw [beStep_eval _ _ h3l]
        simp [hRl, hNl]
      rw [List.foldlM_cons, hstep]
      have hn1 : 1 ≤ rest.countP isN := by
        rw [if_pos hNl] at hN
        omega
      simpa using beScan_second_N_panics rest next (beName l) h3r hr0 hn1
    · have hstep : beStep ((next, none) : BeState) l =
          some (next, none) := by
        rw [beStep_eval _ _ h3l]
        simp [hRl, hNl]
      rw [List.foldlM_cons, hstep]
      have hn2 : 2 ≤ rest.countP isN := by
        rw [if_neg hNl] at hN
        omega
      simpa using ih next h3r hr0 hn2

theorem get_bootenvironment_two_N_fatal_witness :
    get_bootenvironment ["be1;x;N".data, "be2;y;N".data] = none :=
  get_bootenvironment_two_N_fatal ["be1;x;N".data, "be2;y;N".data]
    (by decide) (by decide) (by decide)

/-- C1: on a listing whose records all have at least three fields with
exactly one `R`-flagged record `lR` and exactly one `N`-flagged record `lN`,
`get_bootenvironment` returns the `N` record's name alone iff the `R`
record's name equals it, and otherwise returns
`"{current} (staged {next})"` built from the two names. -/
theorem get_bootenvironment_staged (lines : List (List Char)) (lR lN : List Char)
    (h3 : ∀ l ∈ lines, 3 ≤ (beFields l).length)
    (hcR : lines.countP isR = 1) (hcN : lines.countP isN = 1)
    (hfR : lines.find? isR = some lR) (hfN : lines.find? isN = some lN) :
    (get_bootenvironment lines = some (.ok (beName lN)) ↔ beName lR = beName lN)
    ∧ (beName lR ≠ beName lN →
        get_bootenvironment lines =
          some (.ok (beName lN ++ " (staged ".data ++ beName lR ++ ")".data))) := by
  have hscan := beScan_general lines none none h3 (by simp [hcR]) (by simp [hcN])
  rw [hfR, hfN] at hscan
  simp only [Option.map_some', fallback_none] at hscan
  have hres : get_bootenvironment lines =
      some (.ok (if beName lR = beName lN then beName lN
                 else beName lN ++ " (staged ".data ++ beName lR ++ ")".data)) := by
    rw [get_bootenvironment, hscan]
  constructor
  · constructor
    · intro hok
      by_contra hne
      rw [hres, if_neg hne] at hok
      have h1 := Except.ok.inj (Option.some.inj hok)
      have h2 := congrArg List.length h1
      simp [List.length_append] at h2
    · intro heq
      rw [hres, if_pos heq]
  · intro hne
    rw [hres, if_neg hne]

theorem get_bootenvironment_staged_witness :
    ((get_bootenvironment ["omnios-a;x;N".data, "omnios-b;y;R".data] =
        some (.ok (beName "omnios-a;x;N".data)) ↔
        beName "omnios-b;y;R".data = beName "omnios-a;x;N".data)
    ∧ (beName "omnios-b;y;R".data ≠ beName "omnios-a;x;N".data →
        get_bootenvironment ["omnios-a;x;N".data, "omnios-b;y;R".data] =
          some (.ok (beName "omnios-a;x;N".data ++ " (staged ".data
            ++ beName "omnios-b;y;R".data ++ ")".data)))) :=
  get_bootenvironment_staged ["omnios-a;x;N".data, "omnios-b;y;R".data]
    "omnios-b;y;R".data "omnios-a;x;N".data
    (by decide) (by decide) (by decide) (by decide) (by decide)

end Omnifetch
